import Mathlib

/-!
Verification of the vibe-py-linter core against its specification.

The development shallowly embeds the two core subsystems of the repository:
the lint orchestrator of `sources/vibelinter/engine.py` and the fix
application engine of `sources/vibelinter/fixer.py`.  External collaborators
(the LibCST parser, rule capabilities, the registry, the file system) are
modelled as explicit function parameters, matching the interface contracts
of the specification.  Machinery the repository delegates to Python is
embedded with the same observable behaviour: the stable `list.sort` of
CPython is embedded as a stable insertion sort, exceptions become `Option`
or `Except` results, and file writes become an explicit list of performed
write operations.
-/

/-! ## Positions and the stable sort used by the engine and the fixer

CPython `list.sort(key = ...)` and `sorted(..., reverse = True)` are stable
sorts.  They are embedded as a stable insertion sort `sortBy`, for which
sortedness, permutation and stability (preservation of every equal-key
fiber) are proved below. -/

/-- Lexicographic comparison of (line, column) positions, as produced by the
`key = lambda v: (v.line, v.column)` orderings in the source. -/
def posLe (p q : Nat × Nat) : Bool :=
  decide (p.1 < q.1 ∨ (p.1 = q.1 ∧ p.2 ≤ q.2))

/-- Stable insertion of one element into an already sorted list: the new
element is placed before the first element it compares below-or-equal to. -/
def insertSorted (le : α → α → Bool) (x : α) : List α → List α
  | [] => [x]
  | y :: ys => if le x y then x :: y :: ys else y :: insertSorted le x ys

/-- Stable sort with boolean comparison, embedding the stable CPython sort. -/
def sortBy (le : α → α → Bool) : List α → List α
  | [] => []
  | x :: xs => insertSorted le x (sortBy le xs)

namespace Vibelinter

/-! ## Data model

Violation follows `sources/vibelinter/rules/violations.py`.  The tree type
abstracts the LibCST module: the only observations the core makes of a tree
are rendering it back to text (`module.code`) and passing it to rule and
transformer capabilities, so a tree is modelled by its rendered text. -/

structure Violation where
  rule_id : String
  filename : String
  line : Nat
  column : Nat
  message : String
  severity : String := "error"
deriving DecidableEq, Repr

structure ViolationContext where
  violation : Violation
  context_lines : List String
  context_start_line : Nat
deriving DecidableEq, Repr

structure Tree where
  code : String
deriving DecidableEq, Repr

/-- Modelled from the spec: `FixSafety` lives in `rules/fixable.py`, which is
not among the sources; section 3 of the spec describes it as a two-valued
classification `{Safe, Dangerous}` controlling opt-in application. -/
inductive FixSafety where
  | Safe
  | Dangerous
deriving DecidableEq, Repr, BEq

/-- Modelled from the spec: the string form of the classification, used by
`FixEngine._filter_by_safety` as `fix.safety.value` inside the skip reason. -/
def FixSafety.value : FixSafety → String
  | .Safe => "safe"
  | .Dangerous => "dangerous"

/-- Modelled from the spec: the `Fix` record of section 3 (`rules/fixable.py`
is not among the sources): a violation back-reference, a description, a pure
tree-to-tree transform and a safety classification.  The transform returns
`none` when the underlying Python callable raises. -/
structure Fix where
  violation : Violation
  description : String
  transformer_factory : Tree → Option Tree
  safety : FixSafety

structure SkippedFix where
  fix : Fix
  reason : String

structure FixConflict where
  skipped_fix : Fix
  conflicting_fix : Fix
  reason : String

structure FixApplicationResult where
  filename : String
  original_source : String
  modified_source : String
  applied_fixes : List Fix
  skipped_fixes : List SkippedFix
  conflicts : List FixConflict

/-- Derived predicate of `fixer.py`: `len(self.applied_fixes) > 0`. -/
def FixApplicationResult.has_changes (r : FixApplicationResult) : Bool :=
  decide (0 < r.applied_fixes.length)

/-! ## Fix engine (`sources/vibelinter/fixer.py`) -/

/-- Embedding of `FixEngine._filter_by_safety`: splits the incoming fixes
into eligible ones and skipped ones, preserving relative order. -/
def filterBySafety (apply_dangerous : Bool) :
    List Fix → List Fix × List SkippedFix
  | [] => ([], [])
  | fix :: rest =>
    let es := filterBySafety apply_dangerous rest
    if fix.safety == FixSafety.Safe || apply_dangerous then
      (fix :: es.1, es.2)
    else
      (es.1,
        { fix := fix,
          reason :=
            "Fix is " ++ fix.safety.value
              ++ "; use --apply-dangerous to enable." } :: es.2)

/-- Comparison used by `FixEngine._sort_fixes_by_position`: sorting with
`reverse = True` on the `(line, column)` key is the stable sort by the
reversed comparison. -/
def fixGe (f g : Fix) : Bool :=
  posLe (g.violation.line, g.violation.column)
    (f.violation.line, f.violation.column)

/-- Embedding of `FixEngine._sort_fixes_by_position`. -/
def sortFixesByPosition (fixes : List Fix) : List Fix :=
  sortBy fixGe fixes

/-- Lookup in the `applied_positions` dictionary of `apply_fixes`. -/
def lookupPos : List ((Nat × Nat) × Fix) → (Nat × Nat) → Option Fix
  | [], _ => none
  | (q, f) :: rest, p => if p = q then some f else lookupPos rest p

/-- Embedding of the sequential application loop of `FixEngine.apply_fixes`:
walks the sorted eligible fixes, records an overlap conflict when the target
position is already claimed, otherwise runs the transform; a failing
transform is recorded as a conflict with the fix itself and leaves the tree
and the claimed positions unchanged.  Returns the final tree, the applied
fixes and the conflicts, both in loop order. -/
def applyFixesLoop (positions : List ((Nat × Nat) × Fix)) (module : Tree) :
    List Fix → Tree × List Fix × List FixConflict
  | [] => (module, [], [])
  | fix :: rest =>
    let position := (fix.violation.line, fix.violation.column)
    match lookupPos positions position with
    | some prev =>
      let r := applyFixesLoop positions module rest
      (r.1, r.2.1,
        { skipped_fix := fix, conflicting_fix := prev,
          reason := "Overlapping fix location." } :: r.2.2)
    | none =>
      match fix.transformer_factory module with
      | some module2 =>
        let r := applyFixesLoop ((position, fix) :: positions) module2 rest
        (r.1, fix :: r.2.1, r.2.2)
      | none =>
        let r := applyFixesLoop positions module rest
        (r.1, r.2.1,
          { skipped_fix := fix, conflicting_fix := fix,
            reason := "Transformation failed." } :: r.2.2)

/-- Embedding of `FixEngine.apply_fixes`.  The LibCST parser is passed in as
`parse`; a `none` result models the exception raised by
`libcst.parse_module`, which propagates out of `apply_fixes`. -/
def applyFixes (parse : String → Option Tree) (apply_dangerous : Bool)
    (source_code : String) (fixes : List Fix) (filename : String) :
    Option FixApplicationResult :=
  if fixes.isEmpty then
    some { filename := filename, original_source := source_code,
           modified_source := source_code, applied_fixes := [],
           skipped_fixes := [], conflicts := [] }
  else
    let es := filterBySafety apply_dangerous fixes
    if es.1.isEmpty then
      some { filename := filename, original_source := source_code,
             modified_source := source_code, applied_fixes := [],
             skipped_fixes := es.2, conflicts := [] }
    else
      match parse source_code with
      | none => none
      | some module =>
        let sorted := sortFixesByPosition es.1
        let r := applyFixesLoop [] module sorted
        some { filename := filename, original_source := source_code,
               modified_source := r.1.code, applied_fixes := r.2.1,
               skipped_fixes := es.2, conflicts := r.2.2 }

/-- Embedding of `FixEngine.apply_fixes_to_file`.  The file content stands
for the result of `file_path.read_text()`; the second component of the
result collects the contents passed to `file_path.write_text(...)`, one
entry per performed write, so that write effects are observable. -/
def applyFixesToFile (parse : String → Option Tree) (apply_dangerous : Bool)
    (file_content : String) (file_path : String) (fixes : List Fix)
    (simulate : Bool) : Option (FixApplicationResult × List String) :=
  match applyFixes parse apply_dangerous file_content fixes file_path with
  | none => none
  | some result =>
    if result.has_changes && !simulate then
      some (result, [result.modified_source])
    else
      some (result, [])

/-! ## Lint orchestrator (`sources/vibelinter/engine.py`)

Rule capabilities and the registry are external collaborators: a rule
instance is observed only through the single `wrapper.visit(rule)` call made
for it (a full traversal of the tree that accumulates violations, or raises)
and through its `violations` attribute afterwards, so it is modelled by its
identifier together with the outcome of that traversal.  Wall-clock
`analysis_duration_ms` is real time and is not part of the embedding. -/

structure RuleInstance where
  rule_id : String
  run : Tree → Except String (List Violation)

/-- Registry collaborator contract: `produce_rule_instance` receives the VBL
code, filename, tree wrapper, source lines and rule parameters, and either
returns an instance or raises. -/
structure Registry where
  produce : String → String → Tree → List String →
    List (String × String) → Except String RuleInstance

/-- Configuration record of `engine.py` (lines 38-50).  The sources define
exactly these four fields; in particular there is no `per_file_ignores`
field, although `cli.py` attempts to pass one. -/
structure EngineConfiguration where
  enabled_rules : List String
  rule_parameters : List (String × List (String × String)) := []
  context_size : Nat := 2
  include_context : Bool := true

/-- Report record of `engine.py`, without the wall-clock duration field. -/
structure Report where
  violations : List Violation
  contexts : List ViolationContext
  filename : String
  rule_count : Nat
deriving DecidableEq, Repr

inductive LintError where
  | metadataProvideFailure (message : String)
  | ruleExecuteFailure (message : String)
  | readFailure (message : String)
deriving DecidableEq, Repr

/-- Splitting a character list at every occurrence of a separator. -/
def splitChar (sep : Char) : List Char → List (List Char)
  | [] => [[]]
  | c :: cs =>
    let parts := splitChar sep cs
    if c == sep then [] :: parts
    else match parts with
      | [] => [[c]]
      | part :: rest => (c :: part) :: rest

/-- Embedding of `str.splitlines()` for newline-separated text: CPython
emits one entry per line and no trailing empty entry for a final newline. -/
def pySplitlines (s : String) : List String :=
  let parts := splitChar '\n' s.data
  let parts2 := if parts.getLast? = some [] then parts.dropLast else parts
  parts2.map fun cs => String.mk cs

/-- Embedding of the rule instantiation loop of `Engine.lint_source`: one
`produce_rule_instance` call per enabled rule in order, with the per-rule
parameters looked up in `rule_parameters`; the first failure aborts the call
wrapped as a `RuleExecuteFailure`. -/
def instantiateRules (reg : Registry) (cfg : EngineConfiguration)
    (tree : Tree) (source_lines : List String) (filename : String) :
    List String → Except LintError (List RuleInstance)
  | [] => .ok []
  | code :: rest =>
    let params := (cfg.rule_parameters.lookup code).getD []
    match reg.produce code filename tree source_lines params with
    | .error _ =>
      .error (.ruleExecuteFailure
        ("Failed to instantiate rule " ++ code ++ " for " ++ filename))
    | .ok rule =>
      match instantiateRules reg cfg tree source_lines filename rest with
      | .error e => .error e
      | .ok rules => .ok (rule :: rules)

/-- Embedding of the traversal loop of `Engine.lint_source` together with
the subsequent collection loop: the code runs `wrapper.visit(rule)` once per
rule — each call being one full traversal of the tree — and afterwards
concatenates `rule.violations` in rule order.  The returned number counts
the tree traversals performed, which makes the cost observable. -/
def runRules (tree : Tree) (filename : String) :
    List RuleInstance → Except LintError (List Violation × Nat)
  | [] => .ok ([], 0)
  | rule :: rest =>
    match rule.run tree with
    | .error _ =>
      .error (.ruleExecuteFailure
        ("Rule " ++ rule.rule_id ++ " failed during analysis of " ++ filename))
    | .ok violations =>
      match runRules tree filename rest with
      | .error e => .error e
      | .ok vr => .ok (violations ++ vr.1, vr.2 + 1)

/-- Modelled from the spec: `extract_contexts_for_violations` lives in
`rules/context.py`, which is not among the sources; section 4.1 step 6
describes one context per violation, a window of `context_size` lines
before and after the violation line, clamped to file bounds. -/
def extract_contexts_for_violations (violations : List Violation)
    (source_lines : List String) (context_size : Nat) :
    List ViolationContext :=
  violations.map fun v =>
    let startLine := max 1 (v.line - context_size)
    let stopLine := min source_lines.length (v.line + context_size)
    { violation := v,
      context_lines := (source_lines.drop (startLine - 1)).take
        (stopLine + 1 - startLine),
      context_start_line := startLine }

/-- Comparison on violations used by the `all_violations.sort` call. -/
def violationLe (v1 v2 : Violation) : Bool :=
  posLe (v1.line, v1.column) (v2.line, v2.column)

/-- Embedding of `Engine.lint_source` up to, and excluding, the sort: parse,
split into lines, instantiate the enabled rules, traverse once per rule and
collect all violations in discovery order.  Returns the collected
violations, the rule count, the number of tree traversals performed and the
source lines.  A parse failure surfaces through the final generic handler
of `lint_source` as a `RuleExecuteFailure`. -/
def lintSourceCore (parse : String → Option Tree) (reg : Registry)
    (cfg : EngineConfiguration) (source_code filename : String) :
    Except LintError (List Violation × Nat × Nat × List String) :=
  match parse source_code with
  | none =>
    .error (.ruleExecuteFailure
      ("Unexpected error during analysis of " ++ filename))
  | some tree =>
    let source_lines := pySplitlines source_code
    match instantiateRules reg cfg tree source_lines filename
        cfg.enabled_rules with
    | .error e => .error e
    | .ok rules =>
      match runRules tree filename rules with
      | .error e => .error e
      | .ok vr => .ok (vr.1, rules.length, vr.2, source_lines)

/-- Embedding of `Engine.lint_source` (lines 97-188): collects violations,
sorts them by `(line, column)` with the stable CPython sort, extracts
contexts when enabled and violations exist, and returns the report.  No
suppression or per-file-ignore filtering appears between collection and
return, mirroring the source.  The second component is the number of tree
traversals performed. -/
def lintSource (parse : String → Option Tree) (reg : Registry)
    (cfg : EngineConfiguration) (source_code filename : String) :
    Except LintError (Report × Nat) :=
  match lintSourceCore parse reg cfg source_code filename with
  | .error e => .error e
  | .ok (all_violations, rule_count, traversals, source_lines) =>
    let sorted := sortBy violationLe all_violations
    let contexts :=
      if cfg.include_context && !sorted.isEmpty then
        extract_contexts_for_violations sorted source_lines cfg.context_size
      else []
    .ok ({ violations := sorted, contexts := contexts,
           filename := filename, rule_count := rule_count }, traversals)

/-- Embedding of `Engine.lint_file`: reads the file and delegates to
`lint_source` with the path as filename.  The file system is a partial map
from paths to contents; `none` models an unreadable file. -/
def lintFile (fs : String → Option String) (parse : String → Option Tree)
    (reg : Registry) (cfg : EngineConfiguration) (path : String) :
    Except LintError Report :=
  match fs path with
  | none => .error (.readFailure path)
  | some source_code =>
    match lintSource parse reg cfg source_code path with
    | .error e => .error e
    | .ok rn => .ok rn.1

/-- Embedding of `Engine.lint_files` (lines 190-209): one `lint_file` call
per path in order; any exception makes that path contribute nothing and the
loop continues. -/
def lintFiles (fs : String → Option String) (parse : String → Option Tree)
    (reg : Registry) (cfg : EngineConfiguration) :
    List String → List Report
  | [] => []
  | path :: rest =>
    match lintFile fs parse reg cfg path with
    | .ok report => report :: lintFiles fs parse reg cfg rest
    | .error _ => lintFiles fs parse reg cfg rest

/-! ## Suppression index

The engine methods `_extract_suppressions` and `_filter_violations`, which
the test suite `tests/test_000_vibelinter/test_350_filtering.py` exercises,
are absent from the `Engine` class in the sources.  The marker scanning is
therefore modelled from the spec so that suppression of a line can be
stated; section 4.2 describes a per-line marker whose generic form
suppresses every rule and whose scoped form lists comma-separated rule
identifiers, whitespace-insensitively. -/

inductive Suppression where
  | all
  | codes (cs : List String)
deriving DecidableEq, Repr

/-- Leading and trailing whitespace removal on character lists. -/
def trimChars (cs : List Char) : List Char :=
  ((cs.dropWhile Char.isWhitespace).reverse.dropWhile Char.isWhitespace).reverse

/-- Modelled from the spec: scanning one source line for a suppression
marker in its trailing comment region (`Engine._extract_suppressions` is not
among the sources).  The generic form `# noqa` suppresses all rules; the
scoped form `# noqa: A, B` lists rule identifiers, whitespace-insensitive. -/
def parseSuppression (line : String) : Option Suppression :=
  match line.data.dropWhile (fun c => c != '#') with
  | [] => none
  | _ :: comment =>
    let c := trimChars comment
    if c = "noqa".data then some .all
    else if List.isPrefixOf "noqa:".data c then
      some (.codes
        (((splitChar ',' (c.drop 5)).map
          (fun cs => String.mk (trimChars cs))).filter (fun s => s ≠ "")))
    else none

/-- Modelled from the spec: the per-file suppression index, mapping 1-based
line numbers carrying a marker to the suppression on that line. -/
def extractSuppressionsFrom (n : Nat) : List String → List (Nat × Suppression)
  | [] => []
  | line :: rest =>
    match parseSuppression line with
    | some s => (n, s) :: extractSuppressionsFrom (n + 1) rest
    | none => extractSuppressionsFrom (n + 1) rest

/-- Modelled from the spec: the Suppression Index of section 4.2, built once
per file from the source lines. -/
def extractSuppressions (source_lines : List String) :
    List (Nat × Suppression) :=
  extractSuppressionsFrom 1 source_lines

/-- A convenient total parser standing for `libcst.parse_module` on sources
it accepts: the tree is the module whose rendering is the source itself. -/
def parseOk : String → Option Tree := fun s => some { code := s }

def emptyFixResult : FixApplicationResult :=
  { filename := "", original_source := "", modified_source := "",
    applied_fixes := [], skipped_fixes := [], conflicts := [] }

def witViolation (line column : Nat) : Violation :=
  { rule_id := "VBL101", filename := "w.py", line := line, column := column,
    message := "m", severity := "warning" }

/-- A safe fix used by witnesses; its transform appends a marker line. -/
def witSafeFix : Fix :=
  { violation := witViolation 1 1, description := "safe",
    transformer_factory := fun t => some { code := t.code ++ "\nfixed" },
    safety := FixSafety.Safe }

/-- A dangerous fix used by witnesses; its transform also succeeds. -/
def witDangerousFix : Fix :=
  { violation := witViolation 2 1, description := "dangerous",
    transformer_factory := fun t => some { code := t.code ++ "\ndanger" },
    safety := FixSafety.Dangerous }

def reportDefault : Report :=
  { violations := [], contexts := [], filename := "", rule_count := 0 }

/-- Registry used by the C6 witness: one rule reporting three violations in
non-sorted discovery order, with a `(2, 1)` tie distinguished by message. -/
def c6Registry : Registry :=
  { produce := fun code _ _ _ _ =>
      .ok { rule_id := code,
            run := fun _ =>
              .ok [ { rule_id := code, filename := "w.py", line := 2,
                      column := 1, message := "first" },
                    { rule_id := code, filename := "w.py", line := 1,
                      column := 1, message := "second" },
                    { rule_id := code, filename := "w.py", line := 2,
                      column := 1, message := "third" } ] } }

def c6Config : EngineConfiguration :=
  { enabled_rules := ["VBL101"], include_context := false }

/-! ## Settling the suppression and traversal claims

The `Engine` class of the sources exposes neither `_extract_suppressions`
nor `_filter_violations`, although `tests/test_000_vibelinter/`
`test_350_filtering.py` calls both on `Engine` instances, and
`EngineConfiguration` has no `per_file_ignores` field although `cli.py`
passes one.  Consequently `lint_source` applies no suppression filtering at
all, which the following concrete run exhibits. -/

def c1Violation : Violation :=
  { rule_id := "VBL101", filename := "t.py", line := 2, column := 1,
    message := "Test violation", severity := "error" }

def c1Registry : Registry :=
  { produce := fun code _ _ _ _ =>
      .ok { rule_id := code, run := fun _ => .ok [c1Violation] } }

def c1Config : EngineConfiguration :=
  { enabled_rules := ["VBL101"], include_context := false }

def c1Source : String := "x = 1\ny = 2  # noqa"

def c4Registry : Registry :=
  { produce := fun code _ _ _ _ =>
      .ok { rule_id := code, run := fun _ => .ok [] } }

def c4Config : EngineConfiguration :=
  { enabled_rules := ["VBL101", "VBL102"], include_context := false }

/-- Target position of a fix, the `(line, column)` key of the loop. -/
def fixPos (f : Fix) : Nat × Nat := (f.violation.line, f.violation.column)

/-- A safe fix at position (1, 1) whose transform always fails. -/
def witFailingFix : Fix :=
  { violation := witViolation 1 1, description := "failing",
    transformer_factory := fun _ => none, safety := FixSafety.Safe }

/-- A safe fix at position (1, 1) whose transform succeeds. -/
def witRetryFix : Fix :=
  { violation := witViolation 1 1, description := "retry",
    transformer_factory := fun t => some { code := t.code ++ "\nretried" },
    safety := FixSafety.Safe }

/-- A second safe fix at position (1, 1) whose transform always fails. -/
def witSecondFailingFix : Fix :=
  { violation := witViolation 1 1, description := "failing2",
    transformer_factory := fun _ => none, safety := FixSafety.Safe }

end Vibelinter

theorem posLe_refl (p : Nat × Nat) : posLe p p = true := by
  simp [posLe]

theorem posLe_trans {p q r : Nat × Nat} (h1 : posLe p q = true)
    (h2 : posLe q r = true) : posLe p r = true := by
  simp only [posLe, decide_eq_true_eq] at *
  omega

theorem posLe_total (p q : Nat × Nat) : posLe p q = true ∨ posLe q p = true := by
  simp only [posLe, decide_eq_true_eq]
  omega

theorem perm_insertSorted (le : α → α → Bool) (x : α) (l : List α) :
    List.Perm (insertSorted le x l) (x :: l) := by
  induction l with
  | nil => simp [insertSorted]
  | cons y ys ih =>
    by_cases h : le x y
    · simp [insertSorted, h]
    · simp only [insertSorted, h, if_neg, Bool.false_eq_true, if_false]
      exact (List.Perm.cons y ih).trans (List.Perm.swap x y ys)

theorem sortBy_perm (le : α → α → Bool) (l : List α) :
    List.Perm (sortBy le l) l := by
  induction l with
  | nil => simp [sortBy]
  | cons x xs ih =>
    exact (perm_insertSorted le x (sortBy le xs)).trans (List.Perm.cons x ih)

theorem mem_insertSorted (le : α → α → Bool) (x z : α) (l : List α) :
    z ∈ insertSorted le x l ↔ z = x ∨ z ∈ l := by
  rw [(perm_insertSorted le x l).mem_iff]
  simp

theorem pairwise_insertSorted (le : α → α → Bool)
    (total : ∀ a b, le a b = true ∨ le b a = true)
    (trans : ∀ a b c, le a b = true → le b c = true → le a c = true)
    (x : α) (l : List α) (h : l.Pairwise (fun a b => le a b = true)) :
    (insertSorted le x l).Pairwise (fun a b => le a b = true) := by
  induction l with
  | nil => simp [insertSorted]
  | cons y ys ih =>
    rcases List.pairwise_cons.mp h with ⟨hy, hys⟩
    by_cases hxy : le x y = true
    · simp only [insertSorted, hxy, if_true]
      refine List.pairwise_cons.mpr ⟨?_, h⟩
      intro z hz
      rcases List.mem_cons.mp hz with rfl | hz
      · exact hxy
      · exact trans x y z hxy (hy z hz)
    · simp only [insertSorted, hxy, Bool.false_eq_true, if_false]
      refine List.pairwise_cons.mpr ⟨?_, ih hys⟩
      intro z hz
      rcases (mem_insertSorted le x z ys).mp hz with rfl | hz
      · rcases total z y with h1 | h1
        · exact absurd h1 hxy
        · exact h1
      · exact hy z hz

theorem pairwise_sortBy (le : α → α → Bool)
    (total : ∀ a b, le a b = true ∨ le b a = true)
    (trans : ∀ a b c, le a b = true → le b c = true → le a c = true)
    (l : List α) : (sortBy le l).Pairwise (fun a b => le a b = true) := by
  induction l with
  | nil => simp [sortBy]
  | cons x xs ih => exact pairwise_insertSorted le total trans x (sortBy le xs) ih

theorem filter_insertSorted (le : α → α → Bool) (p : α → Bool)
    (hp : ∀ a b, p a = true → p b = true → le a b = true)
    (x : α) (l : List α) :
    (insertSorted le x l).filter p =
      if p x then x :: l.filter p else l.filter p := by
  induction l with
  | nil => simp [insertSorted, List.filter_cons]
  | cons y ys ih =>
    by_cases hxy : le x y = true
    · simp [insertSorted, hxy, List.filter_cons]
    · simp only [insertSorted, hxy, Bool.false_eq_true, if_false]
      by_cases hpx : p x = true
      · have hpy : p y = false := by
          by_contra hpy
          exact hxy (hp x y hpx (by revert hpy; cases p y <;> simp))
        simp [List.filter_cons, hpy, ih, hpx]
      · have hpx0 : p x = false := by revert hpx; cases p x <;> simp
        by_cases hpy : p y = true
        · simp [List.filter_cons, hpy, ih, hpx0]
        · have hpy0 : p y = false := by revert hpy; cases p y <;> simp
          simp [List.filter_cons, hpy0, ih, hpx0]

/-- Stability of the embedded sort: the fiber of every key is preserved,
which is the standard characterisation of a stable sort. -/
theorem filter_sortBy (le : α → α → Bool) (p : α → Bool)
    (hp : ∀ a b, p a = true → p b = true → le a b = true)
    (l : List α) : (sortBy le l).filter p = l.filter p := by
  induction l with
  | nil => simp [sortBy]
  | cons x xs ih =>
    rw [sortBy, filter_insertSorted le p hp]
    by_cases hpx : p x = true
    · simp [List.filter_cons, hpx, ih]
    · have hpx0 : p x = false := by revert hpx; cases p x <;> simp
      simp [List.filter_cons, hpx0, ih]

namespace Vibelinter

/-! ## Accounting lemmas for the fix engine -/

theorem filterBySafety_perm (apply_dangerous : Bool) (fixes : List Fix) :
    List.Perm fixes
      ((filterBySafety apply_dangerous fixes).1 ++
        ((filterBySafety apply_dangerous fixes).2).map (·.fix)) := by
  induction fixes with
  | nil => simp [filterBySafety]
  | cons fix rest ih =>
    by_cases hc : (fix.safety == FixSafety.Safe || apply_dangerous) = true
    · simp only [filterBySafety, hc, if_true]
      exact List.Perm.cons fix ih
    · simp only [filterBySafety, hc, Bool.false_eq_true, if_false, List.map_cons]
      exact (List.Perm.cons fix ih).trans List.perm_middle.symm

theorem mem_filterBySafety_fst {apply_dangerous : Bool} {fixes : List Fix}
    {f : Fix} (h : f ∈ (filterBySafety apply_dangerous fixes).1) : f ∈ fixes := by
  induction fixes with
  | nil => simp [filterBySafety] at h
  | cons fix rest ih =>
    by_cases hc : (fix.safety == FixSafety.Safe || apply_dangerous) = true
    · simp only [filterBySafety, hc, if_true] at h
      rcases List.mem_cons.mp h with rfl | h
      · exact List.mem_cons_self _ _
      · exact List.mem_cons_of_mem _ (ih h)
    · simp only [filterBySafety, hc, Bool.false_eq_true, if_false] at h
      exact List.mem_cons_of_mem _ (ih h)

theorem applyFixesLoop_perm (l : List Fix) :
    ∀ (positions : List ((Nat × Nat) × Fix)) (module : Tree),
    List.Perm l
      ((applyFixesLoop positions module l).2.1 ++
        ((applyFixesLoop positions module l).2.2).map (·.skipped_fix)) := by
  induction l with
  | nil => intro positions module; simp [applyFixesLoop]
  | cons fix rest ih =>
    intro positions module
    cases hl : lookupPos positions (fix.violation.line, fix.violation.column) with
    | some prev =>
      simp only [applyFixesLoop, hl, List.map_cons]
      exact (List.Perm.cons fix (ih positions module)).trans List.perm_middle.symm
    | none =>
      cases ht : fix.transformer_factory module with
      | some module2 =>
        simp only [applyFixesLoop, hl, ht]
        exact List.Perm.cons fix
          (ih (((fix.violation.line, fix.violation.column), fix) :: positions)
            module2)
      | none =>
        simp only [applyFixesLoop, hl, ht, List.map_cons]
        exact (List.Perm.cons fix (ih positions module)).trans List.perm_middle.symm

/-- C2: every supplied fix is accounted for in exactly one of the three
outcome sequences of the returned result — the input fix sequence is a
permutation of applied fixes, skipped fixes and conflicts together, so
nothing is duplicated or silently discarded. -/
theorem apply_fixes_accounts_for_every_fix
    (parse : String → Option Tree) (apply_dangerous : Bool)
    (source_code : String) (fixes : List Fix) (filename : String)
    (r : FixApplicationResult)
    (h : applyFixes parse apply_dangerous source_code fixes filename = some r) :
    List.Perm fixes
      (r.applied_fixes ++ r.skipped_fixes.map (·.fix) ++
        r.conflicts.map (·.skipped_fix)) := by
  by_cases hemp : fixes.isEmpty
  · have hnil : fixes = [] := by
      cases fixes with
      | nil => rfl
      | cons a l => simp [List.isEmpty] at hemp
    subst hnil
    simp only [applyFixes, List.isEmpty_nil, if_true, Option.some.injEq] at h
    subst h
    simp
  · by_cases helig : ((filterBySafety apply_dangerous fixes).1).isEmpty
    · have h1 : (filterBySafety apply_dangerous fixes).1 = [] := by
        cases hh : (filterBySafety apply_dangerous fixes).1 with
        | nil => rfl
        | cons a l => rw [hh] at helig; simp [List.isEmpty] at helig
      simp only [applyFixes, hemp, Bool.false_eq_true, if_false, helig, if_true,
        Option.some.injEq] at h
      subst h
      simp only [List.nil_append, List.map_nil, List.append_nil]
      have := filterBySafety_perm apply_dangerous fixes
      rw [h1] at this
      simpa using this
    · cases hp : parse source_code with
      | none =>
        simp only [applyFixes, hemp, Bool.false_eq_true, if_false, helig, hp] at h
        exact Option.noConfusion h
      | some module =>
        simp only [applyFixes, hemp, Bool.false_eq_true, if_false, helig, hp,
          Option.some.injEq] at h
        subst h
        simp only []
        have hf := filterBySafety_perm apply_dangerous fixes
        have hs := sortBy_perm fixGe (filterBySafety apply_dangerous fixes).1
        have hl := applyFixesLoop_perm
          (sortFixesByPosition (filterBySafety apply_dangerous fixes).1) [] module
        rw [sortFixesByPosition] at hl
        have h2 : List.Perm (filterBySafety apply_dangerous fixes).1
            ((applyFixesLoop [] module
              (sortBy fixGe (filterBySafety apply_dangerous fixes).1)).2.1 ++
              ((applyFixesLoop [] module
                (sortBy fixGe (filterBySafety apply_dangerous fixes).1)).2.2).map
                (·.skipped_fix)) := hs.symm.trans hl
        refine (hf.trans ((h2.append_right _).trans ?_))
        rw [List.append_assoc, List.append_assoc]
        exact List.Perm.append_left _ (List.perm_append_comm)

/-- Witness for C2 at a concrete input: one safe and one dangerous fix. -/
theorem apply_fixes_accounts_for_every_fix_witness :
    List.Perm [witSafeFix, witDangerousFix]
      (((applyFixes parseOk false "x = 1" [witSafeFix, witDangerousFix]
          "w.py").getD emptyFixResult).applied_fixes ++
        (((applyFixes parseOk false "x = 1" [witSafeFix, witDangerousFix]
          "w.py").getD emptyFixResult).skipped_fixes).map (·.fix) ++
        (((applyFixes parseOk false "x = 1" [witSafeFix, witDangerousFix]
          "w.py").getD emptyFixResult).conflicts).map (·.skipped_fix)) :=
  apply_fixes_accounts_for_every_fix parseOk false "x = 1"
    [witSafeFix, witDangerousFix] "w.py" _ rfl

theorem filterBySafety_fst_nil_of_dangerous {fixes : List Fix}
    (h : ∀ f ∈ fixes, f.safety = FixSafety.Dangerous) :
    (filterBySafety false fixes).1 = [] := by
  induction fixes with
  | nil => rfl
  | cons fix rest ih =>
    have hfix : fix.safety = FixSafety.Dangerous := h fix (List.mem_cons_self _ _)
    have hc : (fix.safety == FixSafety.Safe || false) = false := by
      rw [hfix]; rfl
    simp only [filterBySafety, hc, Bool.false_eq_true, if_false]
    exact ih fun f hf => h f (List.mem_cons_of_mem _ hf)

/-- C10: when every supplied fix is dangerous and the dangerous-fixes flag
is off (which subsumes the empty-fix-sequence case), `apply_fixes` returns
the unmodified source with empty applied and conflict buckets, for every
parser behaviour whatsoever — in particular the source is never parsed, so
the call succeeds even on unparseable source. -/
theorem apply_fixes_without_eligible_fixes_skips_parsing
    (parse : String → Option Tree) (source_code : String) (fixes : List Fix)
    (filename : String) (h : ∀ f ∈ fixes, f.safety = FixSafety.Dangerous) :
    applyFixes parse false source_code fixes filename =
      some { filename := filename, original_source := source_code,
             modified_source := source_code, applied_fixes := [],
             skipped_fixes := (filterBySafety false fixes).2,
             conflicts := [] } := by
  cases fixes with
  | nil => rfl
  | cons fix rest =>
    have h1 : (filterBySafety false (fix :: rest)).1 = [] :=
      filterBySafety_fst_nil_of_dangerous h
    simp only [applyFixes, List.isEmpty_cons, Bool.false_eq_true, if_false, h1,
      List.isEmpty_nil, if_true]

/-- Witness for C10: a single dangerous fix together with a parser that
rejects every input; the call still succeeds and leaves the source intact. -/
theorem apply_fixes_without_eligible_fixes_skips_parsing_witness :
    applyFixes (fun _ => none) false "def (" [witDangerousFix] "w.py" =
      some { filename := "w.py", original_source := "def (",
             modified_source := "def (", applied_fixes := [],
             skipped_fixes := (filterBySafety false [witDangerousFix]).2,
             conflicts := [] } :=
  apply_fixes_without_eligible_fixes_skips_parsing (fun _ => none) "def ("
    [witDangerousFix] "w.py"
    (by intro f hf; simp only [List.mem_singleton] at hf; subst hf; rfl)

/-- C8: the file wrapper performs at most one write; the write carries
`modified_source` and happens exactly when the result has changes and
simulation is off; in every other case no write occurs and the on-disk
content stays untouched. -/
theorem apply_fixes_to_file_write_policy
    (parse : String → Option Tree) (apply_dangerous : Bool)
    (file_content file_path : String) (fixes : List Fix) (simulate : Bool)
    (r : FixApplicationResult) (writes : List String)
    (h : applyFixesToFile parse apply_dangerous file_content file_path fixes
      simulate = some (r, writes)) :
    writes.length ≤ 1 ∧
      (r.has_changes = true ∧ simulate = false → writes = [r.modified_source]) ∧
      (¬(r.has_changes = true ∧ simulate = false) → writes = []) := by
  cases ha : applyFixes parse apply_dangerous file_content fixes file_path with
  | none =>
    rw [applyFixesToFile, ha] at h
    exact Option.noConfusion h
  | some result =>
    rw [applyFixesToFile, ha] at h
    by_cases hc : (result.has_changes && !simulate) = true
    · simp only [hc, if_true, Option.some.injEq, Prod.mk.injEq] at h
      obtain ⟨rfl, rfl⟩ := h
      have h1 : result.has_changes = true ∧ simulate = false := by
        constructor
        · revert hc; cases result.has_changes <;> simp
        · revert hc; cases simulate <;> simp
      refine ⟨by simp, fun _ => rfl, fun hn => absurd h1 hn⟩
    · simp only [hc, Bool.false_eq_true, if_false, Option.some.injEq,
        Prod.mk.injEq] at h
      obtain ⟨rfl, rfl⟩ := h
      refine ⟨by simp, fun hcs => ?_, fun _ => rfl⟩
      rcases hcs with ⟨h1, h2⟩
      exact absurd (by rw [h1, h2]; rfl) hc

/-- Witness for C8, mirroring the concrete scenario of the spec: safe fixes
applied with `simulate = true` produce no write while `modified_source`
differs from `original_source`. -/
theorem apply_fixes_to_file_write_policy_witness :
    ((applyFixesToFile parseOk false "l1\nl2" "w.py" [witSafeFix] true).getD
      (emptyFixResult, [])).2 = [] ∧
    ((applyFixesToFile parseOk false "l1\nl2" "w.py" [witSafeFix] true).getD
      (emptyFixResult, [])).1.modified_source ≠
      ((applyFixesToFile parseOk false "l1\nl2" "w.py" [witSafeFix] true).getD
        (emptyFixResult, [])).1.original_source := by
  refine ⟨?_, by decide⟩
  have h := apply_fixes_to_file_write_policy parseOk false "l1\nl2" "w.py"
    [witSafeFix] true
    ((applyFixesToFile parseOk false "l1\nl2" "w.py" [witSafeFix] true).getD
      (emptyFixResult, [])).1
    ((applyFixesToFile parseOk false "l1\nl2" "w.py" [witSafeFix] true).getD
      (emptyFixResult, [])).2 rfl
  exact h.2.2 (by simp)

/-- C5: the batch entry point produces exactly the per-path successes, in
input order; a failing path contributes no report and does not abort the
remaining paths. -/
theorem lint_files_collects_successes_in_order (fs : String → Option String)
    (parse : String → Option Tree) (reg : Registry)
    (cfg : EngineConfiguration) (paths : List String) :
    lintFiles fs parse reg cfg paths =
      paths.filterMap (fun p => (lintFile fs parse reg cfg p).toOption) := by
  induction paths with
  | nil => rfl
  | cons p rest ih =>
    cases hl : lintFile fs parse reg cfg p with
    | ok report =>
      simp only [lintFiles, hl, List.filterMap_cons, Except.toOption, ih]
    | error e =>
      simp only [lintFiles, hl, List.filterMap_cons, Except.toOption, ih]

/-- C6: in every returned report the violations are sorted by
`(line, column)` ascending, and the sort is stable: for every position key,
the subsequence of violations carrying that key equals the corresponding
subsequence of the collected violations in discovery order. -/
theorem lint_source_report_sorted_and_stable
    (parse : String → Option Tree) (reg : Registry)
    (cfg : EngineConfiguration) (source_code filename : String)
    (r : Report) (traversals : Nat) (collected : List Violation)
    (rule_count tr2 : Nat) (lines : List String)
    (hcore : lintSourceCore parse reg cfg source_code filename =
      .ok (collected, rule_count, tr2, lines))
    (h : lintSource parse reg cfg source_code filename = .ok (r, traversals)) :
    r.violations.Pairwise (fun v1 v2 =>
      posLe (v1.line, v1.column) (v2.line, v2.column) = true) ∧
    ∀ k : Nat × Nat,
      r.violations.filter (fun v => decide ((v.line, v.column) = k)) =
        collected.filter (fun v => decide ((v.line, v.column) = k)) := by
  rw [lintSource, hcore] at h
  simp only [Except.ok.injEq, Prod.mk.injEq] at h
  obtain ⟨h1, h2⟩ := h
  subst h1
  constructor
  · exact pairwise_sortBy violationLe
      (fun a b => posLe_total (a.line, a.column) (b.line, b.column))
      (fun a b c hab hbc => posLe_trans hab hbc) collected
  · intro k
    refine filter_sortBy violationLe _ ?_ collected
    intro a b ha hb
    have ha2 : (a.line, a.column) = k := of_decide_eq_true ha
    have hb2 : (b.line, b.column) = k := of_decide_eq_true hb
    show posLe (a.line, a.column) (b.line, b.column) = true
    rw [ha2, hb2]
    exact posLe_refl k

/-- Witness for C6 at a concrete run with a position tie. -/
theorem lint_source_report_sorted_and_stable_witness :
    (((lintSource parseOk c6Registry c6Config "x = 1" "w.py").toOption.getD
        (reportDefault, 0)).1.violations).Pairwise (fun v1 v2 =>
      posLe (v1.line, v1.column) (v2.line, v2.column) = true) ∧
    ∀ k : Nat × Nat,
      (((lintSource parseOk c6Registry c6Config "x = 1" "w.py").toOption.getD
          (reportDefault, 0)).1.violations).filter
        (fun v => decide ((v.line, v.column) = k)) =
      (((lintSourceCore parseOk c6Registry c6Config "x = 1" "w.py").toOption.getD
          ([], 0, 0, [])).1).filter (fun v => decide ((v.line, v.column) = k)) :=
  lint_source_report_sorted_and_stable parseOk c6Registry c6Config "x = 1"
    "w.py" _ _ _ _ _ _ rfl rfl

/-- C1: the second source line carries the generic suppression marker, so
the violation reported on it must be dropped before the report is returned;
the engine nevertheless returns it, because `lint_source` performs no
suppression filtering between collection and return. -/
theorem lint_source_keeps_suppressed_violation :
    extractSuppressions (pySplitlines c1Source) = [(2, Suppression.all)] ∧
    (lintSource parseOk c1Registry c1Config c1Source "t.py").toOption.map
      (fun p => p.1.violations) = some [c1Violation] := by
  constructor <;> rfl

/-- C4: with two instantiated rules the engine performs two full tree
traversals — `wrapper.visit(rule)` is called once per rule — although the
claim (and the "Single-pass CST traversal" comments in `engine.py`) require
a single shared traversal dispatching every node visit to every rule. -/
theorem lint_source_traverses_once_per_rule :
    (lintSource parseOk c4Registry c4Config "x = 1" "t.py").toOption.map
      (fun p => (p.1.rule_count, p.2)) = some (2, 2) := by
  rfl

/-- C9: a failing transform is recorded as a conflict with the fix itself
and reason "Transformation failed.", the working tree stays the tree from
before the attempt, and the target position stays unclaimed — a later
eligible fix at the same position is applied to the original tree rather
than reported as overlapping. -/
theorem transform_failure_leaves_tree_and_position
    (parse : String → Option Tree) (apply_dangerous : Bool)
    (source_code filename : String) (f1 f2 : Fix) (t t2 : Tree)
    (hp : parse source_code = some t)
    (h1 : f1.safety = FixSafety.Safe) (h2 : f2.safety = FixSafety.Safe)
    (hpos : fixPos f1 = fixPos f2)
    (ht1 : f1.transformer_factory t = none)
    (ht2 : f2.transformer_factory t = some t2) :
    applyFixes parse apply_dangerous source_code [f1, f2] filename =
      some { filename := filename, original_source := source_code,
             modified_source := t2.code, applied_fixes := [f2],
             skipped_fixes := [],
             conflicts := [{ skipped_fix := f1, conflicting_fix := f1,
                             reason := "Transformation failed." }] } := by
  have hc1 : (f1.safety == FixSafety.Safe || apply_dangerous) = true := by
    rw [h1]; cases apply_dangerous <;> rfl
  have hc2 : (f2.safety == FixSafety.Safe || apply_dangerous) = true := by
    rw [h2]; cases apply_dangerous <;> rfl
  have hge : fixGe f1 f2 = true := by
    have hpq : (f1.violation.line, f1.violation.column) =
        (f2.violation.line, f2.violation.column) := hpos
    rw [fixGe, ← hpq]
    exact posLe_refl _
  have hfs : filterBySafety apply_dangerous [f1, f2] = ([f1, f2], []) := by
    simp only [filterBySafety, hc1, hc2, if_true]
  have hsort : sortFixesByPosition [f1, f2] = [f1, f2] := by
    simp only [sortFixesByPosition, sortBy, insertSorted, hge, if_true]
  have hpos2 : (f2.violation.line, f2.violation.column) =
      (f1.violation.line, f1.violation.column) := hpos.symm
  simp only [applyFixes, List.isEmpty_cons, Bool.false_eq_true, if_false, hfs,
    List.isEmpty_nil, hp, hsort, applyFixesLoop, lookupPos, ht1, ht2]

/-- Witness for C9: the failing fix conflicts with itself and the
same-position successor is applied to the original tree. -/
theorem transform_failure_leaves_tree_and_position_witness :
    applyFixes parseOk false "x = 1" [witFailingFix, witRetryFix] "w.py" =
      some { filename := "w.py", original_source := "x = 1",
             modified_source := "x = 1\nretried", applied_fixes := [witRetryFix],
             skipped_fixes := [],
             conflicts := [{ skipped_fix := witFailingFix,
                             conflicting_fix := witFailingFix,
                             reason := "Transformation failed." }] } :=
  transform_failure_leaves_tree_and_position parseOk false "x = 1" "w.py"
    witFailingFix witRetryFix { code := "x = 1" } { code := "x = 1\nretried" }
    rfl rfl rfl rfl rfl rfl

/-- Counting behaviour of the application loop at one position, assuming
every transform succeeds: the first fix reaching an unclaimed position is
applied, every further fix at that position becomes a conflict. -/
theorem applyFixesLoop_countP (p : Nat × Nat) (l : List Fix) :
    ∀ (positions : List ((Nat × Nat) × Fix)) (module : Tree),
    (∀ f ∈ l, ∀ t, (f.transformer_factory t).isSome = true) →
    ((applyFixesLoop positions module l).2.1.countP
        (fun f => decide (fixPos f = p)) =
      if (lookupPos positions p).isSome then 0
      else min 1 (l.countP (fun f => decide (fixPos f = p)))) ∧
    ((applyFixesLoop positions module l).2.2.countP
        (fun c => decide (fixPos c.skipped_fix = p)) =
      l.countP (fun f => decide (fixPos f = p)) -
        (applyFixesLoop positions module l).2.1.countP
          (fun f => decide (fixPos f = p))) := by
  induction l with
  | nil =>
    intro positions module _
    refine ⟨?_, by simp [applyFixesLoop]⟩
    cases (lookupPos positions p).isSome <;>
      simp [applyFixesLoop]
  | cons f rest ih =>
    intro positions module htot
    have htotr : ∀ g ∈ rest, ∀ t, (g.transformer_factory t).isSome = true :=
      fun g hg => htot g (List.mem_cons_of_mem _ hg)
    have htf := htot f (List.mem_cons_self _ _)
    cases hl : lookupPos positions (f.violation.line, f.violation.column) with
    | some prev =>
      obtain ⟨iha, ihc⟩ := ih positions module htotr
      simp only [applyFixesLoop, hl]
      by_cases hfp : fixPos f = p
      · have hdt : decide (fixPos f = p) = true := decide_eq_true hfp
        have hlp : lookupPos positions p = some prev := by
          rw [← hfp]; exact hl
        rw [hlp] at iha
        simp only [Option.isSome_some, if_true] at iha
        simp only [List.countP_cons, hdt, if_true, hlp, Option.isSome_some]
        constructor
        · exact iha
        · omega
      · have hdf : decide (fixPos f = p) = false := decide_eq_false hfp
        simp only [List.countP_cons, hdf, Bool.false_eq_true, if_false,
          Nat.add_zero]
        exact ⟨iha, ihc⟩
    | none =>
      cases htr : f.transformer_factory module with
      | none =>
        have h2 := htf module
        rw [htr] at h2
        simp at h2
      | some module2 =>
        obtain ⟨iha, ihc⟩ := ih
          (((f.violation.line, f.violation.column), f) :: positions) module2
          htotr
        simp only [applyFixesLoop, hl, htr]
        by_cases hfp : fixPos f = p
        · have hdt : decide (fixPos f = p) = true := decide_eq_true hfp
          have hlp : lookupPos positions p = none := by
            rw [← hfp]; exact hl
          have hlp2 : lookupPos
              (((f.violation.line, f.violation.column), f) :: positions) p =
              some f := by
            have hpq : p = (f.violation.line, f.violation.column) := hfp.symm
            simp only [lookupPos, if_pos hpq]
          rw [hlp2] at iha
          simp only [Option.isSome_some, if_true] at iha
          simp only [List.countP_cons, hdt, if_true, hlp, Option.isSome_none,
            Bool.false_eq_true, if_false, iha]
          constructor
          · omega
          · rw [ihc, iha]
            omega
        · have hdf : decide (fixPos f = p) = false := decide_eq_false hfp
          have hlp2 : lookupPos
              (((f.violation.line, f.violation.column), f) :: positions) p =
              lookupPos positions p := by
            have hpq : ¬(p = (f.violation.line, f.violation.column)) :=
              fun hc => hfp hc.symm
            simp only [lookupPos, if_neg hpq]
          rw [hlp2] at iha
          simp only [List.countP_cons, hdf, Bool.false_eq_true, if_false,
            Nat.add_zero]
          exact ⟨iha, ihc⟩

/-- Counterexample to C3 as stated: two eligible fixes share the position
(1, 1), yet neither is applied — both transforms fail, so both land in
conflicts, contradicting "never neither applied". -/
theorem conflict_exclusivity_counterexample :
    (applyFixes parseOk false "x = 1" [witFailingFix, witSecondFailingFix]
        "w.py").map
      (fun r => (r.applied_fixes.length, r.conflicts.length)) = some (0, 2) := by
  rfl

/-- C3 (amended): when every transform of the supplied fixes succeeds and
exactly two eligible fixes target position `p`, exactly one of them is
applied and exactly one becomes a conflict. -/
theorem conflict_exclusivity_amended
    (parse : String → Option Tree) (apply_dangerous : Bool)
    (source_code : String) (fixes : List Fix) (filename : String)
    (r : FixApplicationResult) (p : Nat × Nat)
    (h : applyFixes parse apply_dangerous source_code fixes filename = some r)
    (htot : ∀ f ∈ fixes, ∀ t, (f.transformer_factory t).isSome = true)
    (hcount : ((filterBySafety apply_dangerous fixes).1).countP
        (fun f => decide (fixPos f = p)) = 2) :
    r.applied_fixes.countP (fun f => decide (fixPos f = p)) = 1 ∧
    r.conflicts.countP (fun c => decide (fixPos c.skipped_fix = p)) = 1 := by
  have hel : (filterBySafety apply_dangerous fixes).1 ≠ [] := by
    intro hnil
    rw [hnil] at hcount
    simp at hcount
  have hemp : ¬fixes.isEmpty = true := by
    intro habs
    have : fixes = [] := by
      cases fixes with
      | nil => rfl
      | cons a l => simp [List.isEmpty] at habs
    rw [this] at hel
    exact hel rfl
  have helig : ¬((filterBySafety apply_dangerous fixes).1).isEmpty = true := by
    intro habs
    apply hel
    cases hh : (filterBySafety apply_dangerous fixes).1 with
    | nil => rfl
    | cons a l => rw [hh] at habs; simp [List.isEmpty] at habs
  cases hp : parse source_code with
  | none =>
    simp only [applyFixes, hemp, Bool.false_eq_true, if_false, helig, hp] at h
    exact Option.noConfusion h
  | some module =>
    simp only [applyFixes, hemp, Bool.false_eq_true, if_false, helig, hp,
      Option.some.injEq] at h
    subst h
    have htots : ∀ f ∈ sortFixesByPosition (filterBySafety apply_dangerous
        fixes).1, ∀ t, (f.transformer_factory t).isSome = true := by
      intro f hf t
      have hf2 : f ∈ (filterBySafety apply_dangerous fixes).1 :=
        ((sortBy_perm fixGe _).mem_iff).mp hf
      exact htot f (mem_filterBySafety_fst hf2) t
    obtain ⟨ca, cc⟩ := applyFixesLoop_countP p
      (sortFixesByPosition (filterBySafety apply_dangerous fixes).1) [] module
      htots
    have hcs : (sortFixesByPosition (filterBySafety apply_dangerous
        fixes).1).countP (fun f => decide (fixPos f = p)) = 2 := by
      rw [sortFixesByPosition]
      rw [(sortBy_perm fixGe _).countP_eq]
      exact hcount
    rw [hcs] at ca cc
    simp only [lookupPos, Option.isSome_none, Bool.false_eq_true, if_false] at ca
    constructor
    · simpa using ca
    · rw [cc]
      simp only [ca]
      omega

/-- Witness for the amended C3: two same-position safe fixes with
succeeding transforms; the first is applied, the second conflicts. -/
theorem conflict_exclusivity_amended_witness :
    (((applyFixes parseOk false "x = 1" [witSafeFix, witRetryFix]
        "w.py").getD emptyFixResult).applied_fixes).countP
      (fun f => decide (fixPos f = (1, 1))) = 1 ∧
    (((applyFixes parseOk false "x = 1" [witSafeFix, witRetryFix]
        "w.py").getD emptyFixResult).conflicts).countP
      (fun c => decide (fixPos c.skipped_fix = (1, 1))) = 1 :=
  conflict_exclusivity_amended parseOk false "x = 1"
    [witSafeFix, witRetryFix] "w.py" _ (1, 1) rfl
    (by
      intro f hf t
      rcases List.mem_cons.mp hf with rfl | hf
      · rfl
      · rcases List.mem_cons.mp hf with rfl | hf
        · rfl
        · exact absurd hf (List.not_mem_nil f))
    (by decide)

theorem filterBySafety_fst_eq_filter (fixes : List Fix) :
    (filterBySafety false fixes).1 =
      fixes.filter (fun f => f.safety == FixSafety.Safe) := by
  induction fixes with
  | nil => rfl
  | cons f rest ih =>
    by_cases hc : (f.safety == FixSafety.Safe) = true
    · simp only [filterBySafety, hc, Bool.true_or, if_true, List.filter_cons,
        Bool.or_false, ih]
    · have hc0 : (f.safety == FixSafety.Safe) = false := by
        revert hc; cases f.safety == FixSafety.Safe <;> simp
      simp only [filterBySafety, hc0, Bool.false_or, Bool.false_eq_true,
        if_false, List.filter_cons, ih]

theorem filterBySafety_snd_length (fixes : List Fix) :
    (filterBySafety false fixes).2.length =
      fixes.countP (fun f => f.safety == FixSafety.Dangerous) := by
  induction fixes with
  | nil => rfl
  | cons f rest ih =>
    cases hs : f.safety with
    | Safe =>
      have hc : (f.safety == FixSafety.Safe || false) = true := by rw [hs]; rfl
      have hd : (f.safety == FixSafety.Dangerous) = false := by rw [hs]; rfl
      simp only [filterBySafety, hc, if_true, List.countP_cons, hd,
        Bool.false_eq_true, if_false, Nat.add_zero, ih]
    | Dangerous =>
      have hc : (f.safety == FixSafety.Safe || false) = false := by rw [hs]; rfl
      have hd : (f.safety == FixSafety.Dangerous) = true := by rw [hs]; rfl
      simp only [filterBySafety, hc, Bool.false_eq_true, if_false,
        List.length_cons, List.countP_cons, hd, if_true, ih]

theorem filterBySafety_snd_reason {fixes : List Fix} {s : SkippedFix}
    (h : s ∈ (filterBySafety false fixes).2) :
    s.reason = "Fix is dangerous; use --apply-dangerous to enable." := by
  induction fixes with
  | nil => simp [filterBySafety] at h
  | cons f rest ih =>
    cases hs : f.safety with
    | Safe =>
      have hc : (f.safety == FixSafety.Safe || false) = true := by rw [hs]; rfl
      rw [filterBySafety] at h
      simp only [hc, if_true] at h
      exact ih h
    | Dangerous =>
      have hc : (f.safety == FixSafety.Safe || false) = false := by
        rw [hs]; rfl
      rw [filterBySafety] at h
      simp only [hc, Bool.false_eq_true, if_false, List.mem_cons] at h
      rcases h with rfl | h
      · rw [hs]
        rfl
      · exact ih h

/-- With succeeding transforms, pairwise-distinct target positions and no
position claimed beforehand, the loop applies every fix and records no
conflict. -/
theorem applyFixesLoop_all_applied (l : List Fix) :
    ∀ (positions : List ((Nat × Nat) × Fix)) (module : Tree),
    (∀ f ∈ l, ∀ t, (f.transformer_factory t).isSome = true) →
    l.Pairwise (fun f g => fixPos f ≠ fixPos g) →
    (∀ f ∈ l, lookupPos positions (f.violation.line, f.violation.column) =
      none) →
    (applyFixesLoop positions module l).2.1 = l ∧
    (applyFixesLoop positions module l).2.2 = [] := by
  induction l with
  | nil => intro positions module _ _ _; exact ⟨rfl, rfl⟩
  | cons f rest ih =>
    intro positions module htot hpw hlook
    have hlf := hlook f (List.mem_cons_self _ _)
    have htf := htot f (List.mem_cons_self _ _) module
    cases htr : f.transformer_factory module with
    | none => rw [htr] at htf; simp at htf
    | some module2 =>
      have hpw2 := List.pairwise_cons.mp hpw
      have hlook2 : ∀ g ∈ rest,
          lookupPos (((f.violation.line, f.violation.column), f) :: positions)
            (g.violation.line, g.violation.column) = none := by
        intro g hg
        have hne : fixPos f ≠ fixPos g := hpw2.1 g hg
        have hne2 : ¬((g.violation.line, g.violation.column) =
            (f.violation.line, f.violation.column)) := fun hc => hne hc.symm
        simp only [lookupPos, if_neg hne2]
        exact hlook g (List.mem_cons_of_mem _ hg)
      obtain ⟨ha, hc⟩ := ih
        (((f.violation.line, f.violation.column), f) :: positions) module2
        (fun g hg => htot g (List.mem_cons_of_mem _ hg)) hpw2.2 hlook2
      constructor
      · simp only [applyFixesLoop, hlf, htr]
        rw [ha]
      · simp only [applyFixesLoop, hlf, htr]
        rw [hc]

/-- Counterexample to C7 as stated: one safe fix and no dangerous fixes
with no positional overlaps, yet zero fixes are applied — the transform of
the safe fix fails, sending it to conflicts instead of applied_fixes. -/
theorem safety_gate_counterexample :
    (applyFixes parseOk false "x = 1" [witFailingFix] "w.py").map
      (fun r => (r.applied_fixes.length, r.skipped_fixes.length,
        r.conflicts.length)) = some (0, 0, 1) := by
  rfl

/-- C7 (amended): with the dangerous-fixes flag disabled, pairwise distinct
target positions and every transform succeeding, exactly the safe fixes are
applied and exactly the dangerous fixes are skipped, each skip reason naming
the dangerous classification and the enabling flag. -/
theorem safety_gate_amended
    (parse : String → Option Tree) (source_code : String) (fixes : List Fix)
    (filename : String) (r : FixApplicationResult)
    (h : applyFixes parse false source_code fixes filename = some r)
    (htot : ∀ f ∈ fixes, ∀ t, (f.transformer_factory t).isSome = true)
    (hdist : fixes.Pairwise (fun f g => fixPos f ≠ fixPos g)) :
    r.applied_fixes.length =
      fixes.countP (fun f => f.safety == FixSafety.Safe) ∧
    r.skipped_fixes.length =
      fixes.countP (fun f => f.safety == FixSafety.Dangerous) ∧
    r.conflicts = [] ∧
    ∀ s ∈ r.skipped_fixes,
      s.reason = "Fix is dangerous; use --apply-dangerous to enable." := by
  have hsnd := filterBySafety_snd_length fixes
  have hfst := filterBySafety_fst_eq_filter fixes
  by_cases hemp : fixes.isEmpty
  · have hnil : fixes = [] := by
      cases fixes with
      | nil => rfl
      | cons a l => simp [List.isEmpty] at hemp
    subst hnil
    simp only [applyFixes, List.isEmpty_nil, if_true, Option.some.injEq] at h
    subst h
    simp
  · by_cases helig : ((filterBySafety false fixes).1).isEmpty
    · have h1 : (filterBySafety false fixes).1 = [] := by
        cases hh : (filterBySafety false fixes).1 with
        | nil => rfl
        | cons a l => rw [hh] at helig; simp [List.isEmpty] at helig
      simp only [applyFixes, hemp, Bool.false_eq_true, if_false, helig,
        if_true, Option.some.injEq] at h
      subst h
      refine ⟨?_, hsnd, rfl, fun s hs => filterBySafety_snd_reason hs⟩
      have h2 : fixes.filter (fun f => f.safety == FixSafety.Safe) = [] := by
        rw [← hfst]; exact h1
      rw [List.countP_eq_length_filter, h2]
    · cases hp : parse source_code with
      | none =>
        simp only [applyFixes, hemp, Bool.false_eq_true, if_false, helig,
          hp] at h
        exact Option.noConfusion h
      | some module =>
        simp only [applyFixes, hemp, Bool.false_eq_true, if_false, helig, hp,
          Option.some.injEq] at h
        subst h
        have hperm : List.Perm
            (sortFixesByPosition (filterBySafety false fixes).1)
            (filterBySafety false fixes).1 := sortBy_perm fixGe _
        have htots : ∀ f ∈ sortFixesByPosition (filterBySafety false fixes).1,
            ∀ t, (f.transformer_factory t).isSome = true := by
          intro f hf t
          exact htot f (mem_filterBySafety_fst (hperm.mem_iff.mp hf)) t
        have hsym : ∀ {a b : Fix},
            fixPos a ≠ fixPos b → fixPos b ≠ fixPos a :=
          fun hab hc => hab hc.symm
        have hpwel : ((filterBySafety false fixes).1).Pairwise
            (fun f g => fixPos f ≠ fixPos g) := by
          rw [hfst]
          exact List.Pairwise.sublist (List.filter_sublist fixes) hdist
        have hpws : (sortFixesByPosition (filterBySafety false
            fixes).1).Pairwise (fun f g => fixPos f ≠ fixPos g) :=
          (hperm.pairwise_iff hsym).mpr hpwel
        obtain ⟨ha, hc⟩ := applyFixesLoop_all_applied
          (sortFixesByPosition (filterBySafety false fixes).1) [] module
          htots hpws (fun f _ => rfl)
        refine ⟨?_, hsnd, hc, fun s hs => filterBySafety_snd_reason hs⟩
        rw [ha, hperm.length_eq, hfst, List.countP_eq_length_filter]

/-- Witness for the amended C7: one safe and one dangerous fix at distinct
positions with succeeding transforms; the safe one is applied, the
dangerous one is skipped with the expected reason. -/
theorem safety_gate_amended_witness :
    (((applyFixes parseOk false "x = 1" [witSafeFix, witDangerousFix]
        "w.py").getD emptyFixResult).applied_fixes).length =
      ([witSafeFix, witDangerousFix].countP
        (fun f => f.safety == FixSafety.Safe)) ∧
    (((applyFixes parseOk false "x = 1" [witSafeFix, witDangerousFix]
        "w.py").getD emptyFixResult).skipped_fixes).length =
      ([witSafeFix, witDangerousFix].countP
        (fun f => f.safety == FixSafety.Dangerous)) ∧
    ((applyFixes parseOk false "x = 1" [witSafeFix, witDangerousFix]
        "w.py").getD emptyFixResult).conflicts = [] ∧
    ∀ s ∈ ((applyFixes parseOk false "x = 1" [witSafeFix, witDangerousFix]
        "w.py").getD emptyFixResult).skipped_fixes,
      s.reason = "Fix is dangerous; use --apply-dangerous to enable." :=
  safety_gate_amended parseOk "x = 1" [witSafeFix, witDangerousFix] "w.py" _
    rfl
    (by
      intro f hf t
      rcases List.mem_cons.mp hf with rfl | hf
      · rfl
      · rcases List.mem_cons.mp hf with rfl | hf
        · rfl
        · exact absurd hf (List.not_mem_nil f))
    (by
      refine List.pairwise_cons.mpr ⟨?_, ?_⟩
      · intro g hg
        rcases List.mem_cons.mp hg with rfl | hg
        · exact (by decide : fixPos witSafeFix ≠ fixPos witDangerousFix)
        · exact absurd hg (List.not_mem_nil g)
      · refine List.pairwise_cons.mpr ⟨?_, List.Pairwise.nil⟩
        intro g hg
        exact absurd hg (List.not_mem_nil g))

end Vibelinter
